import Mathlib

/-!
# Verification of the multithreaded web crawler's crawl scheduler

This development embeds the crawl scheduler of the `multithreaded-web-crawler`
repository (Rust) in Lean 4 and settles the specification claims about it.

Conventions of the embedding:

* Strings are modelled as `List Char` (written `Str` below); the `str` helper
  converts a Lean string literal.  All string operations used by the code
  (prefix test, trim, drop, line splitting) are given explicit structural
  definitions so that concrete runs evaluate inside the kernel.
* The `url` crate (an external dependency, out of scope per the spec) is
  modelled by a structural parser `parseUrlC` / printer `serializeUrlC` over
  hierarchical URLs `scheme://authority/path?query#fragment`.  This follows the
  spec's contract for the URL normalizer: canonicalization is limited to
  fragment removal, no case or port normalization.  The model accepts any
  alphanumeric scheme, mirroring the crate (the repository's own link
  extraction filters schemes to http/https *after* parsing, which is why that
  filter exists in `crawl_page`).
* Concurrency: the worker loop of `Crawler::worker` and the frontier
  operation `Crawler::add_url` are embedded as small-step machines whose
  atomic steps are exactly the individually-atomic operations of the code
  (one `DashSet::contains`, one `DashSet::insert`, one mutex-protected queue
  operation, one mutex-protected counter operation, one external
  fetch).  A schedule (list of thread indices) selects the interleaving.
* External capabilities (HTTP fetch, robots.txt fetch) are oracles passed as
  functions; `sleep` has no shared-state effect and is folded away.
-/

set_option maxRecDepth 10000

def str (s : String) : List Char := s.data

abbrev Str := List Char

/-- A parsed hierarchical URL.  `host` is the whole authority component,
kept opaque (no userinfo/port splitting, no case normalization). -/
structure UrlM where
  scheme : Str
  host : Str
  path : Str
  query : Option Str
  fragment : Option Str
  deriving DecidableEq, Repr

/-- Scheme characters accepted by the parser model (mirrors the crate's
`[a-z0-9+-.]` after its lowercasing; the model's domain is URLs whose scheme
is already lowercase). -/
def isSchemeChar (c : Char) : Bool :=
  ('a' ≤ c && c ≤ 'z') || ('0' ≤ c && c ≤ '9') || c == '+' || c == '-' || c == '.'

/-- Authority characters: anything up to the first `/`, `?` or `#`. -/
def isAuthChar (c : Char) : Bool :=
  !(c == '/' || c == '?' || c == '#')

/-- Path characters: anything up to the first `?` or `#`. -/
def notQH (c : Char) : Bool :=
  !(c == '?' || c == '#')

/-- Query characters: anything up to the first `#`. -/
def notH (c : Char) : Bool :=
  !(c == '#')

/-- Model of `url::Url::parse` on hierarchical URLs
`scheme://authority[/path][?query][#fragment]`.  An empty path serializes
as `/`, as in the crate. -/
def parseUrlC (cs : Str) : Option UrlM :=
  let scheme := cs.takeWhile isSchemeChar
  match cs.dropWhile isSchemeChar with
  | ':' :: '/' :: '/' :: rest =>
    if scheme = [] then none
    else
      let auth := rest.takeWhile isAuthChar
      let tail := rest.dropWhile isAuthChar
      if auth = [] then none
      else
        let p0 := tail.takeWhile notQH
        let path := if p0 = [] then ['/'] else p0
        match tail.dropWhile notQH with
        | '?' :: t3 =>
          (match t3.dropWhile notH with
           | '#' :: f => some ⟨scheme, auth, path, some (t3.takeWhile notH), some f⟩
           | _ => some ⟨scheme, auth, path, some (t3.takeWhile notH), none⟩)
        | '#' :: f => some ⟨scheme, auth, path, none, some f⟩
        | _ => some ⟨scheme, auth, path, none, none⟩
  | _ => none

/-- The serialized query component: `?query` or nothing. -/
def queryPart : Option Str → Str
  | some q => '?' :: q
  | none => []

/-- The serialized fragment component: `#fragment` or nothing. -/
def fragPart : Option Str → Str
  | some f => '#' :: f
  | none => []

/-- Model of `url::Url::to_string`. -/
def serializeUrlC (u : UrlM) : Str :=
  u.scheme ++ ':' :: '/' :: '/' :: (u.host ++ (u.path ++ (queryPart u.query ++ fragPart u.fragment)))

/-- `Crawler::normalize_url` (src/main.rs lines 62–70): parse the URL,
remove the fragment (`set_fragment(None)`), and serialize; `None` on a
parse error. -/
def normalize_url (cs : Str) : Option Str :=
  match parseUrlC cs with
  | some u => some (serializeUrlC { u with fragment := none })
  | none => none

/-- Whitespace for the model of Rust's `str::trim` (ASCII subset). -/
def isWS (c : Char) : Bool :=
  c == ' ' || c == '\t' || c == '\r' || c == '\n'

/-- Model of `str::trim`. -/
def trimC (cs : Str) : Str :=
  ((cs.dropWhile isWS).reverse.dropWhile isWS).reverse

/-- Split on newlines; model of Rust's `str::lines` on `\n`-separated text. -/
def splitLinesC : Str → List Str
  | [] => [[]]
  | '\n' :: rest => [] :: splitLinesC rest
  | c :: rest =>
    match splitLinesC rest with
    | [] => [[c]]
    | l :: ls => (c :: l) :: ls

/-- Parsed robots.txt rules (src/main.rs lines 183–186). -/
structure RobotsTxt where
  allowed_paths : List Str
  disallowed_paths : List Str
  deriving DecidableEq, Repr

/-- `RobotsTxt::is_allowed` (src/main.rs lines 224–236): return `true` on the
first matching `Allow` prefix; otherwise `false` on the first matching
`Disallow` prefix; otherwise `true`. -/
def RobotsTxt.is_allowed (r : RobotsTxt) (path : Str) : Bool :=
  if r.allowed_paths.any (fun a => a.isPrefixOf path) then true
  else if r.disallowed_paths.any (fun d => d.isPrefixOf path) then false
  else true

/-- The parsing loop of `RobotsTxt::fetch` (src/main.rs lines 205–218): for
each trimmed line, `Allow: ` pushes `line[6..].trim()` onto the allow list and
`Disallow: ` pushes `line[9..].trim()` onto the disallow list; all other
lines are ignored. -/
def RobotsTxt.parse (content : Str) : RobotsTxt :=
  (splitLinesC content).foldl
    (fun r line =>
      let line := trimC line
      if (str "Allow: ").isPrefixOf line then
        { r with allowed_paths := r.allowed_paths ++ [trimC (line.drop 6)] }
      else if (str "Disallow: ").isPrefixOf line then
        { r with disallowed_paths := r.disallowed_paths ++ [trimC (line.drop 9)] }
      else r)
    ⟨[], []⟩

/-- Association-list lookup for the robots cache (model of
`DashMap::get` keyed by host). -/
def lookupC (cache : List (Str × RobotsTxt)) (host : Str) : Option RobotsTxt :=
  match cache with
  | [] => none
  | (h, r) :: rest => if h = host then some r else lookupC rest host

/-- `Crawler::check_robots_txt` (src/src/crawler.rs lines 127–153), with the
external robots.txt fetch abstracted as an oracle `fo : host → Option body`
(`none` stands for a network error, a non-success status, or a body read
failure — exactly the cases in which `RobotsTxt::fetch` returns `None`,
src/main.rs lines 189–204).  Returns the verdict and the updated cache.
In the model every parsed URL has a nonempty authority, so the code's
`host_str() == None → allow` early return has no counterpart; its
`Url::parse` error early return is the `none` branch here. -/
def check_robots_txt (cache : List (Str × RobotsTxt)) (fo : Str → Option Str)
    (url : Str) : Bool × List (Str × RobotsTxt) :=
  match parseUrlC url with
  | none => (true, cache)
  | some pu =>
    match lookupC cache pu.host with
    | some robots => (robots.is_allowed pu.path, cache)
    | none =>
      match fo pu.host with
      | some content =>
        let robots := RobotsTxt.parse content
        (robots.is_allowed pu.path, (pu.host, robots) :: cache)
      | none => (true, cache)

/-- The shared frontier state: the `visited` DashSet (as a list with
set semantics) and the mutex-protected FIFO `queue` of (URL, depth)
pairs (src/src/crawler.rs lines 21–22). -/
structure FrontierState where
  visited : List Str
  queue : List (Str × Nat)
  deriving DecidableEq, Repr

/-- `DashSet::insert`: a no-op when the element is already present. -/
def insertSet (v : List Str) (n : Str) : List Str :=
  if v.contains n then v else n :: v

/-- `Crawler::add_url` (src/src/crawler.rs lines 46–53) executed without
interleaving: normalize; on failure do nothing; if the normalized URL is not
in `visited`, insert it and push `(url, depth)` onto the queue.  (The
interleaved execution of the same code is `stepAdd` below.) -/
def add_url (fs : FrontierState) (url : Str) (depth : Nat) : FrontierState :=
  match normalize_url url with
  | none => fs
  | some n =>
    if fs.visited.contains n then fs
    else { fs with visited := insertSet fs.visited n,
                   queue := fs.queue ++ [(n, depth)] }

/-- `queue.pop_front()` as used by the worker (src/src/crawler.rs
lines 88–91): the dequeue operation of the frontier. -/
def dequeue (q : List (Str × Nat)) : Option ((Str × Nat) × List (Str × Nat)) :=
  match q with
  | [] => none
  | e :: rest => some (e, rest)

/-- Seeding in `Crawler::run` (src/src/crawler.rs line 57): each seed URL is
added at depth 0 by the single coordinator task, before any worker starts. -/
def seedFrontier (seeds : List Str) : FrontierState :=
  seeds.foldl (fun fs u => add_url fs u 0) ⟨[], []⟩

/-- Program counter of one in-flight `add_url` call. -/
inductive APc where
  | check
  | insertPos (n : Str)
  | pushPos (n : Str)
  | done
  deriving DecidableEq, Repr

/-- One in-flight `add_url(url, depth)` call. -/
structure AddTh where
  pc : APc
  url : Str
  depth : Nat
  deriving DecidableEq, Repr

/-- One atomic step of an in-flight `add_url` call (src/src/crawler.rs
lines 46–53).  Normalization is pure and thread-local, so it is folded into
the `contains` step. -/
def stepAdd (fs : FrontierState) (t : AddTh) : FrontierState × AddTh :=
  match t.pc with
  | .check =>
    (match normalize_url t.url with
     | none => (fs, { t with pc := .done })
     | some n =>
       if fs.visited.contains n then (fs, { t with pc := .done })
       else (fs, { t with pc := .insertPos n }))
  | .insertPos n => ({ fs with visited := insertSet fs.visited n }, { t with pc := .pushPos n })
  | .pushPos n => ({ fs with queue := fs.queue ++ [(n, t.depth)] }, { t with pc := .done })
  | .done => (fs, t)

/-- Scheduler step: run one atomic step of thread `i` (out-of-range indices
are no-ops). -/
def stepAddSys (c : FrontierState × List AddTh) (i : Nat) : FrontierState × List AddTh :=
  match c.2[i]? with
  | none => c
  | some t =>
    let st := stepAdd c.1 t
    (st.1, c.2.set i st.2)

/-- Run the in-flight `add_url` calls under the interleaving
given by `sched`. -/
def runAdd (c : FrontierState × List AddTh) (sched : List Nat) : FrontierState × List AddTh :=
  sched.foldl stepAddSys c

/-- Configuration (`CrawlerConfig`, a module of this repository not under
src/; fields and their meaning are taken from their uses in
src/src/crawler.rs and from the spec's §6.  `user_agent` is omitted: it only
configures the HTTP client). -/
structure CrawlerConfig where
  max_depth : Nat
  max_pages : Nat
  concurrent_requests : Nat
  delay_ms : Nat
  respect_robots_txt : Bool
  deriving DecidableEq, Repr

/-- The part of a fetched `Page` the scheduler acts on: the extracted
outbound links (already absolutized and scheme-filtered to http/https by
`crawl_page`, src/src/crawler.rs lines 167–182). -/
structure PageM where
  links : List Str
  deriving DecidableEq, Repr

/-- Observable events of a run: a fetch attempt (`ok` records whether
`crawl_page` succeeded) and an enqueue into the frontier. -/
inductive Event where
  | fetch (url : Str) (depth : Nat) (ok : Bool)
  | enq (url : Str) (depth : Nat)
  deriving DecidableEq, Repr

/-- The shared run state: frontier (visited + queue), the stored-page
counter `pages_crawled`, the storage sink contents (URLs of stored pages)
and the event log. -/
structure CrawlState where
  visited : List Str
  queue : List (Str × Nat)
  pages_crawled : Nat
  stored : List Str
  log : List Event
  deriving DecidableEq, Repr

/-- Program counter of one worker.  `addCheck/addInsert/addPush` are the
three atomic steps of the inlined `add_url` call for the head of the
remaining `links`; `depth` is the depth of the page being processed. -/
inductive WPc where
  | budget
  | pop
  | robotsCheck (url : Str) (depth : Nat)
  | fetchPage (url : Str) (depth : Nat)
  | storePage (url : Str) (depth : Nat) (links : List Str)
  | addCheck (depth : Nat) (links : List Str)
  | addInsert (n : Str) (depth : Nat) (links : List Str)
  | addPush (n : Str) (depth : Nat) (links : List Str)
  | incCount
  | emptyCheck
  | stopped
  deriving DecidableEq, Repr

/-- One atomic step of one worker.  `canCrawl` abstracts
`check_robots_txt`, `fo` abstracts the HTTP fetch-and-parse of
`crawl_page` (`none` = any fetch error). -/
def stepW (cfg : CrawlerConfig) (canCrawl : Str → Bool) (fo : Str → Option PageM)
    (s : CrawlState) (t : WPc) : CrawlState × WPc :=
  match t with
  | .budget =>
    if s.pages_crawled ≥ cfg.max_pages then (s, .stopped) else (s, .pop)
  | .pop =>
    (match s.queue with
     | [] => (s, .emptyCheck)
     | (u, d) :: rest =>
       if d ≤ cfg.max_depth then
         ({ s with queue := rest },
          if cfg.respect_robots_txt then .robotsCheck u d else .fetchPage u d)
       else
         ({ s with queue := rest }, .budget))
  | .robotsCheck u d => (s, if canCrawl u then .fetchPage u d else .budget)
  | .fetchPage u d =>
    (match fo u with
     | some page => ({ s with log := s.log ++ [.fetch u d true] }, .storePage u d page.links)
     | none => ({ s with log := s.log ++ [.fetch u d false] }, .budget))
  | .storePage u d links => ({ s with stored := s.stored ++ [u] }, .addCheck d links)
  | .addCheck d links =>
    (match links with
     | [] => (s, .incCount)
     | l :: rest =>
       match normalize_url l with
       | none => (s, .addCheck d rest)
       | some n =>
         if s.visited.contains n then (s, .addCheck d rest)
         else (s, .addInsert n d rest))
  | .addInsert n d rest =>
    ({ s with visited := insertSet s.visited n }, .addPush n d rest)
  | .addPush n d rest =>
    ({ s with queue := s.queue ++ [(n, d + 1)], log := s.log ++ [.enq n (d + 1)] },
     .addCheck d rest)
  | .incCount => ({ s with pages_crawled := s.pages_crawled + 1 }, .budget)
  | .emptyCheck => if s.queue.isEmpty then (s, .stopped) else (s, .budget)
  | .stopped => (s, .stopped)

/-- Scheduler step: one atomic step of worker `i` (out-of-range indices are
no-ops). -/
def stepWSys (cfg : CrawlerConfig) (canCrawl : Str → Bool) (fo : Str → Option PageM)
    (c : CrawlState × List WPc) (i : Nat) : CrawlState × List WPc :=
  match c.2[i]? with
  | none => c
  | some t =>
    let st := stepW cfg canCrawl fo c.1 t
    (st.1, c.2.set i st.2)

/-- Run `n` workers over the seeded frontier under the interleaving given by
`sched` (model of `Crawler::run`, src/src/crawler.rs lines 55–66: seed, spawn
`concurrent_requests` workers, join them). -/
def runW (cfg : CrawlerConfig) (canCrawl : Str → Bool) (fo : Str → Option PageM)
    (c : CrawlState × List WPc) (sched : List Nat) : CrawlState × List WPc :=
  sched.foldl (stepWSys cfg canCrawl fo) c

/-- The initial configuration of a run: the frontier holds the seeds (each
added at depth 0), counters and logs are empty, and all `n` workers are at
the top of their loop. -/
def initRun (seeds : List Str) (n : Nat) : CrawlState × List WPc :=
  let fs := seedFrontier seeds
  (⟨fs.visited, fs.queue, 0, [], []⟩, List.replicate n .budget)

/-- `CrawlResult` (a module of this repository not under src/; the construction
site is src/src/crawler.rs lines 71–76).  The real-time `elapsed_seconds`
field is omitted.  Note `errors` is the literal `0` of line 74. -/
structure CrawlResult where
  pages_processed : Nat
  unique_urls : Nat
  errors : Nat
  deriving DecidableEq, Repr

/-- The result assembly at the end of `Crawler::run` (src/src/crawler.rs
lines 67–76): `pages_processed` reads the shared counter, `unique_urls` is
`visited.len()`, and `errors` is hard-coded `0`. -/
def mkCrawlResult (s : CrawlState) : CrawlResult :=
  ⟨s.pages_crawled, s.visited.length, 0⟩

/-- Well-formedness of a parsed URL: exactly the constraints `parseUrlC`
guarantees on its output, and under which `serializeUrlC` round-trips. -/
def wfUrl (u : UrlM) : Bool :=
  (!u.scheme.isEmpty) && u.scheme.all isSchemeChar &&
  (!u.host.isEmpty) && u.host.all isAuthChar &&
  (!u.path.isEmpty) && (u.path.head? == some '/') && u.path.all notQH &&
  (match u.query with | some q => q.all notH | none => true)

/-- Number of failed fetch attempts recorded in the log. -/
def fetchFailures (log : List Event) : Nat :=
  log.countP fun e => match e with
    | .fetch _ _ ok => !ok
    | _ => false

/-- Number of successful fetch attempts recorded in the log. -/
def fetchSuccesses (log : List Event) : Nat :=
  log.countP fun e => match e with
    | .fetch _ _ ok => ok
    | _ => false

/-- Every fetch attempt recorded in the log respects the depth bound. -/
def fetchLogOK (maxd : Nat) (log : List Event) : Prop :=
  ∀ u d ok, Event.fetch u d ok ∈ log → d ≤ maxd

/-- The program counters that are about to touch the fetcher carry a depth
within the bound. -/
def pcOK (maxd : Nat) : WPc → Prop
  | .robotsCheck _ d => d ≤ maxd
  | .fetchPage _ d => d ≤ maxd
  | _ => True

/-- Joint invariant of the depth bound. -/
def depthInv (maxd : Nat) (c : CrawlState × List WPc) : Prop :=
  fetchLogOK maxd c.1.log ∧ ∀ t ∈ c.2, pcOK maxd t

/-- Worker pcs strictly between a successful fetch and its counter
increment (the success path: store, link enqueueing, increment). -/
def isProcessing : WPc → Bool
  | .storePage _ _ _ => true
  | .addCheck _ _ => true
  | .addInsert _ _ _ => true
  | .addPush _ _ _ => true
  | .incCount => true
  | _ => false

/-- Invariant: the stored-page counter plus the number of workers currently
inside the success path equals the number of successful fetches so far. -/
def succInv (c : CrawlState × List WPc) : Prop :=
  c.1.pages_crawled + c.2.countP isProcessing = fetchSuccesses c.1.log

/-! ## Concrete runs used to settle the claims -/

/-- A canonical URL used by the concrete runs. -/
def urlA : Str := str "https://a.test/"

/-- A second canonical URL used by the concrete runs. -/
def urlB : Str := str "https://b.test/"

/-- A URL discovered as an outbound link in the concrete runs. -/
def urlX : Str := str "https://x.test/"

/-- Configuration with `max_pages = 1` and two workers (robots off). -/
def cfgBudget : CrawlerConfig := ⟨2, 1, 2, 0, false⟩

/-- Configuration with one worker (robots off). -/
def cfgSingle : CrawlerConfig := ⟨2, 50, 1, 0, false⟩

/-- Configuration with `max_depth = 1` and two workers (robots off). -/
def cfgRace : CrawlerConfig := ⟨1, 100, 2, 0, false⟩

/-- Fetch oracle: every fetch succeeds, pages have no outbound links. -/
def foLeaf : Str → Option PageM := fun _ => some ⟨[]⟩

/-- Fetch oracle: every fetch fails. -/
def foFail : Str → Option PageM := fun _ => none

/-- Fetch oracle: the two seeds both succeed and both link to `urlX`;
fetching `urlX` itself fails. -/
def foRace : Str → Option PageM := fun u =>
  if u = urlA then some ⟨[urlX]⟩
  else if u = urlB then some ⟨[urlX]⟩
  else none

/-- Interleaving for the page-budget overrun: both workers pass the budget
check and dequeue before either increments the counter. -/
def schedBudget : List Nat := [0, 1, 0, 1, 0, 0, 0, 0, 1, 1, 1, 1, 0, 1]

/-- A single worker draining one seed whose fetch fails, to completion. -/
def schedFail : List Nat := [0, 0, 0, 0, 0, 0]

/-- Interleaving for the re-enqueue race: worker 0 stalls between its
visited-set membership check for `urlX` and the insert, while worker 1
inserts, enqueues, dequeues and (unsuccessfully) fetches `urlX`; worker 0
then resumes and enqueues `urlX` a second time; both workers then drain the
queue and stop. -/
def schedRace : List Nat :=
  [0, 0, 0, 0, 0, 1, 1, 1, 1, 1, 1, 1, 1, 1, 1, 1, 1,
   0, 0, 0, 0, 0, 0, 0, 0, 0, 0, 1, 1, 1]

/-- The completed budget-overrun run. -/
def runBudget : CrawlState × List WPc :=
  runW cfgBudget (fun _ => true) foLeaf (initRun [urlA, urlB] 2) schedBudget

/-- The completed all-fetches-fail run. -/
def runFail : CrawlState × List WPc :=
  runW cfgSingle (fun _ => true) foFail (initRun [urlA] 1) schedFail

/-- The completed re-enqueue-race run. -/
def runRace : CrawlState × List WPc :=
  runW cfgRace (fun _ => true) foRace (initRun [urlA, urlB] 2) schedRace

/-! ## Theorems -/

theorem takeWhile_append_all {p : Char → Bool} {xs ys : List Char}
    (h : ∀ a ∈ xs, p a = true) :
    (xs ++ ys).takeWhile p = xs ++ ys.takeWhile p := by
  induction xs with
  | nil => simp
  | cons a l ih =>
    simp only [List.cons_append, List.takeWhile_cons, h a (by simp)]
    simp [ih fun b hb => h b (by simp [hb])]

theorem dropWhile_append_all {p : Char → Bool} {xs ys : List Char}
    (h : ∀ a ∈ xs, p a = true) :
    (xs ++ ys).dropWhile p = ys.dropWhile p := by
  induction xs with
  | nil => simp
  | cons a l ih =>
    simp only [List.cons_append, List.dropWhile_cons, h a (by simp)]
    simp [ih fun b hb => h b (by simp [hb])]

theorem takeWhile_all_eq {p : Char → Bool} {xs : List Char}
    (h : ∀ a ∈ xs, p a = true) : xs.takeWhile p = xs := by
  have := @takeWhile_append_all p xs [] h
  simpa using this

theorem dropWhile_all_eq {p : Char → Bool} {xs : List Char}
    (h : ∀ a ∈ xs, p a = true) : xs.dropWhile p = [] := by
  have := @dropWhile_append_all p xs [] h
  simpa using this

theorem dropWhile_head_not {p : Char → Bool} (l : List Char) :
    ∀ a t, l.dropWhile p = a :: t → p a = false := by
  induction l with
  | nil => intro a t h; cases h
  | cons x xs ih =>
    intro a t h
    by_cases hx : p x = true
    · exact ih a t (by simpa [List.dropWhile_cons, hx] using h)
    · simp only [Bool.not_eq_true] at hx
      simp [List.dropWhile_cons, hx] at h
      simp [← h.1, hx]

theorem isSchemeChar_colon : isSchemeChar ':' = false := by decide

theorem isAuthChar_slash : isAuthChar '/' = false := by decide

theorem notQH_qmark : notQH '?' = false := by decide

theorem notQH_hash : notQH '#' = false := by decide

theorem notH_hash : notH '#' = false := by decide

theorem takeWhile_cons_append_all {p : Char → Bool} {x : Char} {xs ys : List Char}
    (hx : p x = true) (h : ∀ a ∈ xs, p a = true) :
    (x :: (xs ++ ys)).takeWhile p = x :: (xs ++ ys.takeWhile p) := by
  simp [List.takeWhile_cons, hx, takeWhile_append_all h]

theorem dropWhile_cons_append_all {p : Char → Bool} {x : Char} {xs ys : List Char}
    (hx : p x = true) (h : ∀ a ∈ xs, p a = true) :
    (x :: (xs ++ ys)).dropWhile p = ys.dropWhile p := by
  simp [List.dropWhile_cons, hx, dropWhile_append_all h]

theorem takeWhile_cons_all {p : Char → Bool} {x : Char} {xs : List Char}
    (hx : p x = true) (h : ∀ a ∈ xs, p a = true) :
    (x :: xs).takeWhile p = x :: xs := by
  simp [List.takeWhile_cons, hx, takeWhile_all_eq h]

theorem dropWhile_cons_all {p : Char → Bool} {x : Char} {xs : List Char}
    (hx : p x = true) (h : ∀ a ∈ xs, p a = true) :
    (x :: xs).dropWhile p = [] := by
  simp [List.dropWhile_cons, hx, dropWhile_all_eq h]

theorem parseUrlC_serializeUrlC {u : UrlM} (h : wfUrl u = true) :
    parseUrlC (serializeUrlC u) = some u := by
  obtain ⟨s, ho, p, q, f⟩ := u
  simp only [wfUrl, Bool.and_eq_true, Bool.not_eq_true', List.isEmpty_eq_false,
    List.all_eq_true, beq_iff_eq] at h
  obtain ⟨⟨⟨⟨⟨⟨⟨hs, hsall⟩, hh⟩, hhall⟩, hpne⟩, hphead⟩, hpall⟩, hq⟩ := h
  obtain ⟨pt, rfl⟩ : ∃ pt, p = '/' :: pt := by
    cases p with
    | nil => cases hphead
    | cons c cs =>
      simp only [List.head?_cons, Option.some.injEq] at hphead
      exact ⟨cs, by rw [hphead]⟩
  have hsl : notQH '/' = true := by decide
  have hpt : ∀ a ∈ pt, notQH a = true := fun a ha => hpall a (by simp [ha])
  cases q with
  | none =>
    cases f with
    | none =>
      simp [serializeUrlC, queryPart, fragPart, parseUrlC,
        takeWhile_append_all hsall, dropWhile_append_all hsall,
        takeWhile_append_all hhall, dropWhile_append_all hhall,
        takeWhile_cons_all hsl hpt, dropWhile_cons_all hsl hpt,
        List.takeWhile_cons, List.dropWhile_cons,
        isSchemeChar_colon, isAuthChar_slash, hs, hh]
    | some fv =>
      simp [serializeUrlC, queryPart, fragPart, parseUrlC,
        takeWhile_append_all hsall, dropWhile_append_all hsall,
        takeWhile_append_all hhall, dropWhile_append_all hhall,
        takeWhile_cons_append_all hsl hpt, dropWhile_cons_append_all hsl hpt,
        List.takeWhile_cons, List.dropWhile_cons,
        isSchemeChar_colon, isAuthChar_slash, notQH_hash, hs, hh]
  | some qv =>
    have hqall : ∀ a ∈ qv, notH a = true := by simpa using hq
    cases f with
    | none =>
      simp [serializeUrlC, queryPart, fragPart, parseUrlC,
        takeWhile_append_all hsall, dropWhile_append_all hsall,
        takeWhile_append_all hhall, dropWhile_append_all hhall,
        takeWhile_cons_append_all hsl hpt, dropWhile_cons_append_all hsl hpt,
        takeWhile_all_eq hqall, dropWhile_all_eq hqall,
        List.takeWhile_cons, List.dropWhile_cons,
        isSchemeChar_colon, isAuthChar_slash, notQH_qmark, hs, hh]
    | some fv =>
      simp [serializeUrlC, queryPart, fragPart, parseUrlC,
        takeWhile_append_all hsall, dropWhile_append_all hsall,
        takeWhile_append_all hhall, dropWhile_append_all hhall,
        takeWhile_cons_append_all hsl hpt, dropWhile_cons_append_all hsl hpt,
        takeWhile_append_all hqall, dropWhile_append_all hqall,
        List.takeWhile_cons, List.dropWhile_cons,
        isSchemeChar_colon, isAuthChar_slash, notQH_qmark, notH_hash, hs, hh]

theorem notQH_slash : notQH '/' = true := by decide

theorem char_slash_of {c : Char} (h1 : isAuthChar c = false) (h2 : notQH c = true) :
    c = '/' := by
  simp only [isAuthChar, Bool.not_eq_false', Bool.or_eq_true, beq_iff_eq] at h1
  simp only [notQH, Bool.not_eq_true', Bool.or_eq_false_iff, beq_eq_false_iff_ne,
    ne_eq] at h2
  rcases h1 with (h | h) | h
  · exact h
  · exact absurd h h2.1
  · exact absurd h h2.2

theorem wf_assemble {s ho p : Str} {q f : Option Str}
    (h1 : s ≠ []) (h2 : ∀ a ∈ s, isSchemeChar a = true)
    (h3 : ho ≠ []) (h4 : ∀ a ∈ ho, isAuthChar a = true)
    (h5 : ((!p.isEmpty) && (p.head? == some '/') && p.all notQH) = true)
    (h6 : ∀ q0, q = some q0 → ∀ a ∈ q0, notH a = true) :
    wfUrl ⟨s, ho, p, q, f⟩ = true := by
  simp only [Bool.and_eq_true] at h5
  simp only [wfUrl, Bool.and_eq_true]
  refine ⟨⟨⟨⟨⟨⟨⟨?_, ?_⟩, ?_⟩, ?_⟩, ?_⟩, ?_⟩, ?_⟩, ?_⟩
  · simpa using h1
  · simpa [List.all_eq_true] using h2
  · simpa using h3
  · simpa [List.all_eq_true] using h4
  · exact h5.1.1
  · exact h5.1.2
  · exact h5.2
  · cases q with
    | none => rfl
    | some q0 => simpa [List.all_eq_true] using h6 q0 rfl

theorem path_shape_wf (rest : List Char) :
    ((!(if (rest.dropWhile isAuthChar).takeWhile notQH = [] then ['/']
        else (rest.dropWhile isAuthChar).takeWhile notQH).isEmpty) &&
     ((if (rest.dropWhile isAuthChar).takeWhile notQH = [] then ['/']
        else (rest.dropWhile isAuthChar).takeWhile notQH).head? == some '/') &&
     (if (rest.dropWhile isAuthChar).takeWhile notQH = [] then ['/']
        else (rest.dropWhile isAuthChar).takeWhile notQH).all notQH) = true := by
  by_cases hp : (rest.dropWhile isAuthChar).takeWhile notQH = []
  · simp [hp, notQH_slash]
  · simp only [hp, if_false]
    cases htail : rest.dropWhile isAuthChar with
    | nil => simp [htail] at hp
    | cons t0 tt =>
      have ht0 : isAuthChar t0 = false := dropWhile_head_not rest t0 tt htail
      rw [htail] at hp
      cases hq0 : notQH t0 with
      | false => simp [List.takeWhile_cons, hq0] at hp
      | true =>
        have ht0s : t0 = '/' := char_slash_of ht0 hq0
        subst ht0s
        simp only [List.takeWhile_cons, hq0, if_true, Bool.and_eq_true]
        refine ⟨⟨?_, ?_⟩, ?_⟩
        · simp
        · simp
        · simp only [List.all_cons, Bool.and_eq_true]
          refine ⟨notQH_slash, ?_⟩
          exact List.all_eq_true.mpr fun a ha => List.mem_takeWhile_imp ha

theorem parseUrlC_wf {cs : Str} {u : UrlM} (h : parseUrlC cs = some u) :
    wfUrl u = true := by
  simp only [parseUrlC] at h
  split at h
  case h_2 => cases h
  case h_1 rest heq =>
    split at h
    case isTrue => cases h
    case isFalse hsne =>
      split at h
      case isTrue => cases h
      case isFalse hane =>
        have hsall : ∀ a ∈ cs.takeWhile isSchemeChar, isSchemeChar a = true :=
          fun a ha => List.mem_takeWhile_imp ha
        have hhall : ∀ a ∈ rest.takeWhile isAuthChar, isAuthChar a = true :=
          fun a ha => List.mem_takeWhile_imp ha
        have hqall : ∀ t3 : List Char, ∀ a ∈ t3.takeWhile notH, notH a = true :=
          fun t3 a ha => List.mem_takeWhile_imp ha
        split at h
        case h_1 t3 heq2 =>
          split at h
          · cases h
            exact wf_assemble hsne hsall hane hhall (path_shape_wf rest)
              (fun q0 hq0 => by cases hq0; exact hqall t3)
          · cases h
            exact wf_assemble hsne hsall hane hhall (path_shape_wf rest)
              (fun q0 hq0 => by cases hq0; exact hqall t3)
        case h_2 fr heq2 =>
          cases h
          exact wf_assemble hsne hsall hane hhall (path_shape_wf rest)
            (fun q0 hq0 => by cases hq0)
        case h_3 heq2 heq3 =>
          cases h
          exact wf_assemble hsne hsall hane hhall (path_shape_wf rest)
            (fun q0 hq0 => by cases hq0)

theorem wfUrl_strip {u : UrlM} : wfUrl { u with fragment := none } = wfUrl u := by
  cases u; rfl

theorem strip_strip {u : UrlM} :
    ({ u with fragment := none } : UrlM) = { { u with fragment := none } with fragment := none } := by
  cases u; rfl

theorem normalize_url_idem {s t : Str} (h : normalize_url s = some t) :
    normalize_url t = some t := by
  simp only [normalize_url] at h ⊢
  cases hp : parseUrlC s with
  | none => rw [hp] at h; cases h
  | some u =>
    rw [hp] at h
    have hwf : wfUrl ({ u with fragment := none }) = true := by
      rw [wfUrl_strip]; exact parseUrlC_wf hp
    have hrt := parseUrlC_serializeUrlC hwf
    simp only [Option.some.injEq] at h
    subst h
    simp only [hrt, ← strip_strip]

theorem normalize_url_strips_fragment {u : UrlM} (hwf : wfUrl u = true) :
    normalize_url (serializeUrlC u) = some (serializeUrlC { u with fragment := none }) := by
  simp only [normalize_url, parseUrlC_serializeUrlC hwf]

theorem foldl_inv {α β : Type} {f : α → β → α} {P : α → Prop}
    (h : ∀ a b, P a → P (f a b)) :
    ∀ (l : List β) (a : α), P a → P (l.foldl f a) := by
  intro l
  induction l with
  | nil => intro a ha; exact ha
  | cons b bs ih => intro a ha; exact ih _ (h a b ha)

theorem mem_of_idx {α : Type} {l : List α} {i : Nat} {a : α} (h : l[i]? = some a) :
    a ∈ l := by
  have hi : i < l.length := (List.getElem?_eq_some.mp h).1
  have hg := List.getElem?_eq_getElem hi
  rw [hg] at h
  cases h
  exact List.getElem_mem ..

theorem countP_set_eq {α : Type} (p : α → Bool) {l : List α} {i : Nat} (b : α) {a : α}
    (h : l[i]? = some a) :
    (l.set i b).countP p + (if p a then 1 else 0) =
      l.countP p + (if p b then 1 else 0) := by
  induction l generalizing i with
  | nil => cases h
  | cons x xs ih =>
    cases i with
    | zero =>
      simp only [List.getElem?_cons_zero, Option.some.injEq] at h
      subst h
      simp only [List.set_cons_zero, List.countP_cons]
      omega
    | succ j =>
      simp only [List.getElem?_cons_succ] at h
      simp only [List.set_cons_succ, List.countP_cons]
      have := ih h
      omega

theorem threads_set_OK {maxd : Nat} {ts : List WPc} {i : Nat} {t2 : WPc}
    (hpc : ∀ t ∈ ts, pcOK maxd t) (h2 : pcOK maxd t2) :
    ∀ t ∈ ts.set i t2, pcOK maxd t := by
  intro t ht
  rcases List.mem_or_eq_of_mem_set ht with h | rfl
  · exact hpc t h
  · exact h2

theorem fetchLogOK_append_enq {maxd : Nat} {log : List Event} {u : Str} {d : Nat}
    (h : fetchLogOK maxd log) : fetchLogOK maxd (log ++ [Event.enq u d]) := by
  intro u2 d2 ok2 hm
  rcases List.mem_append.mp hm with hm | hm
  · exact h _ _ _ hm
  · simp at hm

theorem fetchLogOK_append_fetch {maxd : Nat} {log : List Event} {u : Str} {d : Nat}
    {ok : Bool} (h : fetchLogOK maxd log) (hd : d ≤ maxd) :
    fetchLogOK maxd (log ++ [Event.fetch u d ok]) := by
  intro u2 d2 ok2 hm
  rcases List.mem_append.mp hm with hm | hm
  · exact h _ _ _ hm
  · simp only [List.mem_singleton, Event.fetch.injEq] at hm
    exact hm.2.1 ▸ hd

theorem stepWSys_depthInv (cfg : CrawlerConfig) (cc : Str → Bool) (fo : Str → Option PageM)
    (c : CrawlState × List WPc) (i : Nat) (h : depthInv cfg.max_depth c) :
    depthInv cfg.max_depth (stepWSys cfg cc fo c i) := by
  obtain ⟨hlog, hpc⟩ := h
  unfold stepWSys
  cases hidx : c.2[i]? with
  | none => exact ⟨hlog, hpc⟩
  | some t =>
    have ht := hpc t (mem_of_idx hidx)
    cases t with
    | budget =>
      simp only [stepW]
      split
      · exact ⟨hlog, threads_set_OK hpc trivial⟩
      · exact ⟨hlog, threads_set_OK hpc trivial⟩
    | pop =>
      cases hq : c.1.queue with
      | nil =>
        simp only [stepW, hq]
        exact ⟨hlog, threads_set_OK hpc trivial⟩
      | cons e rest =>
        obtain ⟨u, d⟩ := e
        by_cases hd : d ≤ cfg.max_depth
        · simp only [stepW, hq, if_pos hd]
          cases hr : cfg.respect_robots_txt with
          | true =>
            simp only [hr, if_true]
            exact ⟨hlog, threads_set_OK hpc (by simpa [pcOK] using hd)⟩
          | false =>
            simp only [hr, Bool.false_eq_true, if_false]
            exact ⟨hlog, threads_set_OK hpc (by simpa [pcOK] using hd)⟩
        · simp only [stepW, hq, if_neg hd]
          exact ⟨hlog, threads_set_OK hpc trivial⟩
    | robotsCheck u d =>
      cases hcc : cc u with
      | true =>
        simp only [stepW, hcc, if_true]
        exact ⟨hlog, threads_set_OK hpc (by simpa [pcOK] using ht)⟩
      | false =>
        simp only [stepW, hcc, Bool.false_eq_true, if_false]
        exact ⟨hlog, threads_set_OK hpc trivial⟩
    | fetchPage u d =>
      cases hfo : fo u with
      | some page =>
        simp only [stepW, hfo]
        exact ⟨fetchLogOK_append_fetch hlog ht, threads_set_OK hpc trivial⟩
      | none =>
        simp only [stepW, hfo]
        exact ⟨fetchLogOK_append_fetch hlog ht, threads_set_OK hpc trivial⟩
    | storePage u d links =>
      simp only [stepW]
      exact ⟨hlog, threads_set_OK hpc trivial⟩
    | addCheck d links =>
      cases links with
      | nil =>
        simp only [stepW]
        exact ⟨hlog, threads_set_OK hpc trivial⟩
      | cons l rest =>
        cases hn : normalize_url l with
        | none =>
          simp only [stepW, hn]
          exact ⟨hlog, threads_set_OK hpc trivial⟩
        | some n =>
          by_cases hv : c.1.visited.contains n = true
          · simp only [stepW, hn, hv, if_true]
            exact ⟨hlog, threads_set_OK hpc trivial⟩
          · simp only [stepW, hn, if_neg hv]
            exact ⟨hlog, threads_set_OK hpc trivial⟩
    | addInsert n d rest =>
      simp only [stepW]
      exact ⟨hlog, threads_set_OK hpc trivial⟩
    | addPush n d rest =>
      simp only [stepW]
      exact ⟨fetchLogOK_append_enq hlog, threads_set_OK hpc trivial⟩
    | incCount =>
      simp only [stepW]
      exact ⟨hlog, threads_set_OK hpc trivial⟩
    | emptyCheck =>
      simp only [stepW]
      split
      · exact ⟨hlog, threads_set_OK hpc trivial⟩
      · exact ⟨hlog, threads_set_OK hpc trivial⟩
    | stopped =>
      simp only [stepW]
      exact ⟨hlog, threads_set_OK hpc trivial⟩

theorem runW_depthInv (cfg : CrawlerConfig) (cc : Str → Bool) (fo : Str → Option PageM)
    (seeds : List Str) (n : Nat) (sched : List Nat) :
    depthInv cfg.max_depth (runW cfg cc fo (initRun seeds n) sched) := by
  refine foldl_inv (fun a b ha => stepWSys_depthInv cfg cc fo a b ha) sched _ ?_
  constructor
  · intro u d ok hm
    simp [initRun] at hm
  · intro t htm
    have : t = WPc.budget := by
      simpa [initRun] using List.eq_of_mem_replicate htm
    simp [this, pcOK]

theorem fetchSuccesses_append_fetch (log : List Event) (u : Str) (d : Nat) (ok : Bool) :
    fetchSuccesses (log ++ [Event.fetch u d ok]) =
      fetchSuccesses log + (if ok then 1 else 0) := by
  cases ok <;> simp [fetchSuccesses, List.countP_append, List.countP_cons]

theorem fetchSuccesses_append_enq (log : List Event) (u : Str) (d : Nat) :
    fetchSuccesses (log ++ [Event.enq u d]) = fetchSuccesses log := by
  simp [fetchSuccesses, List.countP_append, List.countP_cons]

theorem fetchFailures_append_fetch (log : List Event) (u : Str) (d : Nat) (ok : Bool) :
    fetchFailures (log ++ [Event.fetch u d ok]) =
      fetchFailures log + (if ok then 0 else 1) := by
  cases ok <;> simp [fetchFailures, List.countP_append, List.countP_cons]

theorem fetchFailures_append_enq (log : List Event) (u : Str) (d : Nat) :
    fetchFailures (log ++ [Event.enq u d]) = fetchFailures log := by
  simp [fetchFailures, List.countP_append, List.countP_cons]

theorem stepWSys_succInv (cfg : CrawlerConfig) (cc : Str → Bool) (fo : Str → Option PageM)
    (c : CrawlState × List WPc) (i : Nat) (h : succInv c) :
    succInv (stepWSys cfg cc fo c i) := by
  unfold succInv at h ⊢
  unfold stepWSys
  cases hidx : c.2[i]? with
  | none => exact h
  | some t =>
    cases t with
    | budget =>
      simp only [stepW]
      split
      · have hcnt := countP_set_eq isProcessing WPc.stopped hidx
        simp [isProcessing] at hcnt
        try dsimp only
        omega
      · have hcnt := countP_set_eq isProcessing WPc.pop hidx
        simp [isProcessing] at hcnt
        try dsimp only
        omega
    | pop =>
      cases hq : c.1.queue with
      | nil =>
        simp only [stepW, hq]
        have hcnt := countP_set_eq isProcessing WPc.emptyCheck hidx
        simp [isProcessing] at hcnt
        try dsimp only
        omega
      | cons e rest =>
        obtain ⟨u, d⟩ := e
        by_cases hd : d ≤ cfg.max_depth
        · simp only [stepW, hq, if_pos hd]
          cases hr : cfg.respect_robots_txt with
          | true =>
            simp only [hr, if_true]
            have hcnt := countP_set_eq isProcessing (WPc.robotsCheck u d) hidx
            simp [isProcessing] at hcnt
            try dsimp only
            omega
          | false =>
            simp only [hr, Bool.false_eq_true, if_false]
            have hcnt := countP_set_eq isProcessing (WPc.fetchPage u d) hidx
            simp [isProcessing] at hcnt
            try dsimp only
            omega
        · simp only [stepW, hq, if_neg hd]
          have hcnt := countP_set_eq isProcessing WPc.budget hidx
          simp [isProcessing] at hcnt
          try dsimp only
          omega
    | robotsCheck u d =>
      cases hcc : cc u with
      | true =>
        simp only [stepW, hcc, if_true]
        have hcnt := countP_set_eq isProcessing (WPc.fetchPage u d) hidx
        simp [isProcessing] at hcnt
        try dsimp only
        omega
      | false =>
        simp only [stepW, hcc, Bool.false_eq_true, if_false]
        have hcnt := countP_set_eq isProcessing WPc.budget hidx
        simp [isProcessing] at hcnt
        try dsimp only
        omega
    | fetchPage u d =>
      cases hfo : fo u with
      | some page =>
        simp only [stepW, hfo]
        rw [fetchSuccesses_append_fetch]
        have hcnt := countP_set_eq isProcessing (WPc.storePage u d page.links) hidx
        simp [isProcessing] at hcnt
        simp only [if_true]
        try dsimp only
        omega
      | none =>
        simp only [stepW, hfo]
        rw [fetchSuccesses_append_fetch]
        have hcnt := countP_set_eq isProcessing WPc.budget hidx
        simp [isProcessing] at hcnt
        simp only [Bool.false_eq_true, if_false]
        try dsimp only
        omega
    | storePage u d links =>
      simp only [stepW]
      have hcnt := countP_set_eq isProcessing (WPc.addCheck d links) hidx
      simp [isProcessing] at hcnt
      try dsimp only
      omega
    | addCheck d links =>
      cases links with
      | nil =>
        simp only [stepW]
        have hcnt := countP_set_eq isProcessing WPc.incCount hidx
        simp [isProcessing] at hcnt
        try dsimp only
        omega
      | cons l rest =>
        cases hn : normalize_url l with
        | none =>
          simp only [stepW, hn]
          have hcnt := countP_set_eq isProcessing (WPc.addCheck d rest) hidx
          simp [isProcessing] at hcnt
          try dsimp only
          omega
        | some n =>
          by_cases hv : c.1.visited.contains n = true
          · simp only [stepW, hn, hv, if_true]
            have hcnt := countP_set_eq isProcessing (WPc.addCheck d rest) hidx
            simp [isProcessing] at hcnt
            try dsimp only
            omega
          · simp only [stepW, hn, if_neg hv]
            have hcnt := countP_set_eq isProcessing (WPc.addInsert n d rest) hidx
            simp [isProcessing] at hcnt
            try dsimp only
            omega
    | addInsert n d rest =>
      simp only [stepW]
      have hcnt := countP_set_eq isProcessing (WPc.addPush n d rest) hidx
      simp [isProcessing] at hcnt
      try dsimp only
      omega
    | addPush n d rest =>
      simp only [stepW]
      rw [fetchSuccesses_append_enq]
      have hcnt := countP_set_eq isProcessing (WPc.addCheck d rest) hidx
      simp [isProcessing] at hcnt
      try dsimp only
      omega
    | incCount =>
      simp only [stepW]
      have hcnt := countP_set_eq isProcessing WPc.budget hidx
      simp [isProcessing] at hcnt
      try dsimp only
      omega
    | emptyCheck =>
      simp only [stepW]
      split
      · have hcnt := countP_set_eq isProcessing WPc.stopped hidx
        simp [isProcessing] at hcnt
        try dsimp only
        omega
      · have hcnt := countP_set_eq isProcessing WPc.budget hidx
        simp [isProcessing] at hcnt
        try dsimp only
        omega
    | stopped =>
      simp only [stepW]
      have hcnt := countP_set_eq isProcessing WPc.stopped hidx
      simp [isProcessing] at hcnt
      try dsimp only
      omega

theorem runW_succInv (cfg : CrawlerConfig) (cc : Str → Bool) (fo : Str → Option PageM)
    (seeds : List Str) (n : Nat) (sched : List Nat) :
    succInv (runW cfg cc fo (initRun seeds n) sched) := by
  refine foldl_inv (fun a b ha => stepWSys_succInv cfg cc fo a b ha) sched _ ?_
  unfold succInv
  have hz : List.countP isProcessing (List.replicate n WPc.budget) = 0 := by
    rw [List.countP_eq_zero]
    intro t htm
    have h2 : t = WPc.budget := List.eq_of_mem_replicate htm
    simp [h2, isProcessing]
  simp [initRun, hz, fetchSuccesses]

/-- Dequeue-side depth enforcement: a popped entry whose depth exceeds
`max_depth` is discarded — the queue loses its head and the worker goes
straight back to the top of its loop; the visited set, the counter, the
store, and the log are untouched, and neither the robots check nor the
fetcher is reached. -/
theorem stepW_pop_overDepth (cfg : CrawlerConfig) (cc : Str → Bool)
    (fo : Str → Option PageM) (s : CrawlState) (u : Str) (d : Nat)
    (rest : List (Str × Nat)) (hq : s.queue = (u, d) :: rest)
    (hd : cfg.max_depth < d) :
    stepW cfg cc fo s .pop = ({ s with queue := rest }, .budget) := by
  simp only [stepW, hq]
  rw [if_neg (by omega)]

/-- `add_url` on an unseen, normalizable URL inserts into the visited set
and appends to the queue, for every depth value. -/
theorem add_url_unseen (fs : FrontierState) (url : Str) (depth : Nat) (n : Str)
    (hn : normalize_url url = some n) (hv : fs.visited.contains n = false) :
    add_url fs url depth =
      { fs with visited := n :: fs.visited, queue := fs.queue ++ [(n, depth)] } := by
  simp only [add_url, hn, hv, Bool.false_eq_true, if_false, insertSet, hv]

/-- Evaluation rule of `RobotsTxt::is_allowed` as a single Boolean
equation: allowed iff an `Allow` prefix matches or no `Disallow` prefix
matches. -/
theorem is_allowed_eq (r : RobotsTxt) (path : Str) :
    r.is_allowed path =
      (r.allowed_paths.any (fun a => a.isPrefixOf path) ||
        !(r.disallowed_paths.any (fun d => d.isPrefixOf path))) := by
  simp only [RobotsTxt.is_allowed]
  by_cases h1 : r.allowed_paths.any (fun a => a.isPrefixOf path) = true
  · simp [h1]
  · simp only [Bool.not_eq_true] at h1
    by_cases h2 : r.disallowed_paths.any (fun d => d.isPrefixOf path) = true
    · simp [h1, h2]
    · simp only [Bool.not_eq_true] at h2
      simp [h1, h2]

/-- On a robots.txt fetch failure for an uncached host, the verdict is
`allowed` and the cache is unchanged. -/
theorem check_robots_txt_fail_open (cache : List (Str × RobotsTxt))
    (fo : Str → Option Str) (url : Str) (pu : UrlM)
    (hp : parseUrlC url = some pu) (hc : lookupC cache pu.host = none)
    (hf : fo pu.host = none) :
    check_robots_txt cache fo url = (true, cache) := by
  simp only [check_robots_txt, hp, hc, hf]

/-- The robots cache is written only on a successful fetch: either it is
returned unchanged, or the fetch for the parsed host succeeded and exactly
that host's parsed rules were added. -/
theorem check_robots_txt_cache_write (cache : List (Str × RobotsTxt))
    (fo : Str → Option Str) (url : Str) :
    (check_robots_txt cache fo url).2 = cache ∨
      ∃ pu content, parseUrlC url = some pu ∧ lookupC cache pu.host = none ∧
        fo pu.host = some content ∧
        (check_robots_txt cache fo url).2 =
          (pu.host, RobotsTxt.parse content) :: cache := by
  cases hp : parseUrlC url with
  | none => exact Or.inl (by simp [check_robots_txt, hp])
  | some pu =>
    cases hc : lookupC cache pu.host with
    | some robots => exact Or.inl (by simp [check_robots_txt, hp, hc])
    | none =>
      cases hf : fo pu.host with
      | some content =>
        exact Or.inr ⟨pu, content, rfl, hc, hf, by simp [check_robots_txt, hp, hc, hf]⟩
      | none => exact Or.inl (by simp [check_robots_txt, hp, hc, hf])


/-! ## The claims -/

/-- C1: the claim asserts that concurrent `add_url` calls behave as an
atomic check-then-insert, so `dequeue` emits each canonical URL at most once
per run.  The code's membership test and insert are two separate `DashSet`
operations, and the interleaving below (both checks before either insert)
makes two in-flight `add_url` calls for the same URL enqueue it twice, after
which `dequeue` emits it twice — refuting the claim; the same two calls run
back-to-back (atomically) enqueue it once. -/
theorem claim_C1_dedup_race :
    (runAdd (⟨[], []⟩, [⟨.check, urlA, 0⟩, ⟨.check, urlA, 0⟩]) [0, 1, 0, 0, 1, 1]).1.queue =
      [(urlA, 0), (urlA, 0)] ∧
    dequeue [(urlA, 0), (urlA, 0)] = some ((urlA, 0), [(urlA, 0)]) ∧
    dequeue [(urlA, 0)] = some ((urlA, 0), []) ∧
    (add_url (add_url ⟨[], []⟩ urlA 0) urlA 0).queue = [(urlA, 0)] := by
  decide

/-- C2: the claim asserts `pages_crawled ≤ max_pages` at run end for any
worker count.  With `max_pages = 1` and two workers, the interleaving below
lets both workers pass the budget check before either increments; the run
ends (all workers stopped) with `pages_crawled = 2` — refuting the claim. -/
theorem claim_C2_budget_overrun :
    runBudget.2 = [.stopped, .stopped] ∧
    (mkCrawlResult runBudget.1).pages_processed = 2 ∧
    cfgBudget.max_pages = 1 := by
  decide

/-- C3: in every reachable state of any run (any configuration, oracles,
seeds, worker count and interleaving), every fetch handed to the Fetcher is
at depth `≤ max_depth`; and a dequeued entry with `depth > max_depth` is
discarded silently — the queue loses its head, nothing else changes, and the
worker returns to the top of its loop. -/
theorem claim_C3_depth_bound (cfg : CrawlerConfig) (cc : Str → Bool)
    (fo : Str → Option PageM) (seeds : List Str) (n : Nat) (sched : List Nat) :
    (∀ u d ok, Event.fetch u d ok ∈ (runW cfg cc fo (initRun seeds n) sched).1.log →
      d ≤ cfg.max_depth) ∧
    (∀ (s : CrawlState) (u : Str) (d : Nat) (rest : List (Str × Nat)),
      s.queue = (u, d) :: rest → cfg.max_depth < d →
      stepW cfg cc fo s .pop = ({ s with queue := rest }, .budget)) := by
  refine ⟨?_, ?_⟩
  · intro u d ok hm
    exact (runW_depthInv cfg cc fo seeds n sched).1 u d ok hm
  · intro s u d rest hq hd
    exact stepW_pop_overDepth cfg cc fo s u d rest hq hd

/-- Witness for C3 at a concrete run and a concrete over-depth dequeue. -/
theorem claim_C3_witness :
    (0 : Nat) ≤ cfgSingle.max_depth ∧
    stepW cfgSingle (fun _ => true) foFail ⟨[], [(urlA, 5)], 0, [], []⟩ .pop =
      (⟨[], [], 0, [], []⟩, .budget) := by
  constructor
  · exact (claim_C3_depth_bound cfgSingle (fun _ => true) foFail [urlA] 1 schedFail).1
      urlA 0 false (by decide)
  · have h := (claim_C3_depth_bound cfgSingle (fun _ => true) foFail [urlA] 1 schedFail).2
      ⟨[], [(urlA, 5)], 0, [], []⟩ urlA 5 [] rfl (by decide)
    simpa using h

/-- C4 counterexample: a completed run in which the single fetch failed
returns `errors = 0` even though one fetch attempt failed — `errors` does
not equal the number of failed fetch attempts. -/
theorem claim_C4_errors_hardcoded_zero :
    (mkCrawlResult runFail.1).errors = 0 ∧
    fetchFailures runFail.1.log = 1 ∧
    runFail.2 = [.stopped] ∧
    (mkCrawlResult runFail.1).errors ≠ fetchFailures runFail.1.log := by
  decide

/-- C4 amended: the `errors` field of the returned `CrawlResult` is always
`0` (the code counts no errors); at run end (all workers stopped)
`pages_processed` equals the number of successful fetch attempts; and every
completed run returns a `CrawlResult` (the result assembly is total). -/
theorem claim_C4_amended (cfg : CrawlerConfig) (cc : Str → Bool)
    (fo : Str → Option PageM) (seeds : List Str) (n : Nat) (sched : List Nat) :
    (mkCrawlResult (runW cfg cc fo (initRun seeds n) sched).1).errors = 0 ∧
    ((∀ t ∈ (runW cfg cc fo (initRun seeds n) sched).2, t = WPc.stopped) →
      (mkCrawlResult (runW cfg cc fo (initRun seeds n) sched).1).pages_processed =
        fetchSuccesses (runW cfg cc fo (initRun seeds n) sched).1.log) := by
  refine ⟨rfl, ?_⟩
  intro hstop
  have h := runW_succInv cfg cc fo seeds n sched
  unfold succInv at h
  have hz : (runW cfg cc fo (initRun seeds n) sched).2.countP isProcessing = 0 := by
    rw [List.countP_eq_zero]
    intro t ht
    rw [hstop t ht]
    simp [isProcessing]
  simp only [mkCrawlResult]
  omega

/-- Witness for C4 amended at the all-fetches-fail run. -/
theorem claim_C4_witness :
    (mkCrawlResult runFail.1).errors = 0 ∧
    (mkCrawlResult runFail.1).pages_processed = fetchSuccesses runFail.1.log := by
  constructor
  · exact (claim_C4_amended cfgSingle (fun _ => true) foFail [urlA] 1 schedFail).1
  · exact (claim_C4_amended cfgSingle (fun _ => true) foFail [urlA] 1 schedFail).2 (by decide)

/-- C5 counterexample: with rules `Allow: /public`, `Disallow: /`, the path
`/other` is *disallowed* by `is_allowed` (the `Disallow: /` prefix matches
every path), contrary to the claim's "/other (no match) is allowed". -/
theorem claim_C5_other_disallowed :
    (RobotsTxt.parse (str "Allow: /public\nDisallow: /")).is_allowed (str "/other") = false ∧
    ¬ (RobotsTxt.parse (str "Allow: /public\nDisallow: /")).is_allowed (str "/other") = true := by
  decide

/-- C5 amended: `is_allowed` returns `true` iff an `Allow` prefix matches or
no `Disallow` prefix matches (default allow only when nothing matches); for
the rules `Allow: /public`, `Disallow: /`: `/public/page` is allowed and
`/private` is disallowed, while `/other` is disallowed since `Disallow: /`
matches every path. -/
theorem claim_C5_precedence :
    (∀ (r : RobotsTxt) (path : Str),
      r.is_allowed path =
        (r.allowed_paths.any (fun a => a.isPrefixOf path) ||
          !(r.disallowed_paths.any (fun d => d.isPrefixOf path)))) ∧
    (RobotsTxt.parse (str "Allow: /public\nDisallow: /")).is_allowed (str "/public/page") = true ∧
    (RobotsTxt.parse (str "Allow: /public\nDisallow: /")).is_allowed (str "/private") = false :=
  ⟨is_allowed_eq, by decide, by decide⟩

/-- C6: if the robots.txt fetch for an uncached host fails, the verdict is
`allowed` — for every URL on that host — and the cache is unchanged; and in
general the cache is written only on a successful fetch (no negative
caching): it either stays identical or gains exactly the parsed rules of a
host whose fetch succeeded. -/
theorem claim_C6_robots_fail_open :
    (∀ (cache : List (Str × RobotsTxt)) (fo : Str → Option Str) (url : Str) (pu : UrlM),
      parseUrlC url = some pu → lookupC cache pu.host = none → fo pu.host = none →
      check_robots_txt cache fo url = (true, cache)) ∧
    (∀ (cache : List (Str × RobotsTxt)) (fo : Str → Option Str) (url : Str),
      (check_robots_txt cache fo url).2 = cache ∨
        ∃ pu content, parseUrlC url = some pu ∧ lookupC cache pu.host = none ∧
          fo pu.host = some content ∧
          (check_robots_txt cache fo url).2 =
            (pu.host, RobotsTxt.parse content) :: cache) :=
  ⟨check_robots_txt_fail_open, check_robots_txt_cache_write⟩

/-- Witness for C6 at a concrete failed robots fetch. -/
theorem claim_C6_witness :
    check_robots_txt [] (fun _ => none) (str "https://a.test/private") = (true, []) :=
  claim_C6_robots_fail_open.1 [] (fun _ => none) (str "https://a.test/private")
    ⟨str "https", str "a.test", str "/private", none, none⟩ (by decide) rfl rfl

/-- C7 counterexample: `normalize_url` accepts `ftp://example.com/` — a
valid URL whose scheme is neither `http` nor `https` — instead of rejecting
it, refuting "rejection exactly when invalid or scheme not http/https". -/
theorem claim_C7_no_scheme_check :
    normalize_url (str "ftp://example.com/") = some (str "ftp://example.com/") ∧
    (parseUrlC (str "ftp://example.com/")).map UrlM.scheme = some (str "ftp") ∧
    str "ftp" ≠ str "http" ∧ str "ftp" ≠ str "https" := by
  decide

/-- C7 amended: `normalize_url` rejects exactly the strings URL parsing
rejects, and on success returns the parsed URL, fragment stripped,
re-serialized; it applies no scheme restriction (the http/https filter is
applied to extracted links in `crawl_page`, not in the normalizer). -/
theorem claim_C7_rejection_iff_parse_failure (s : Str) :
    (normalize_url s = none ↔ parseUrlC s = none) ∧
    (∀ u, parseUrlC s = some u →
      normalize_url s = some (serializeUrlC { u with fragment := none })) := by
  constructor
  · unfold normalize_url
    cases h : parseUrlC s <;> simp [h]
  · intro u h
    simp [normalize_url, h]

/-- Witness for C7 amended at a concrete URL with a fragment. -/
theorem claim_C7_witness :
    normalize_url (str "https://a.test/b#c") = some (str "https://a.test/b") := by
  have h := (claim_C7_rejection_iff_parse_failure (str "https://a.test/b#c")).2
    ⟨str "https", str "a.test", str "/b", none, some (str "c")⟩ (by decide)
  exact h

/-- C8: the claim asserts a dequeued-and-attempted URL is never re-enqueued.
In the run below the two seed pages both link to `urlX`; worker 0 passes the
visited-set membership check for `urlX` and stalls; worker 1 enqueues
`urlX`, dequeues it and fetches it (the fetch fails); worker 0 then resumes
and enqueues `urlX` again, and it is fetched a second time — the log shows
an enqueue of `urlX` after its failed fetch, and two fetch attempts for it,
refuting the claim. -/
theorem claim_C8_reenqueue_after_attempt :
    runRace.1.log =
      [.fetch urlA 0 true, .fetch urlB 0 true, .enq urlX 1,
       .fetch urlX 1 false, .enq urlX 1, .fetch urlX 1 false] ∧
    runRace.1.log[3]? = some (.fetch urlX 1 false) ∧
    runRace.1.log[4]? = some (.enq urlX 1) ∧
    runRace.1.log.countP (fun e => match e with
      | .fetch u _ _ => u = urlX
      | _ => false) = 2 ∧
    runRace.2 = [.stopped, .stopped] := by
  decide

/-- C9: normalization is idempotent — normalizing any string in the image
of `normalize_url` returns it unchanged — and on a well-formed URL with a
fragment it returns exactly that URL with the fragment component removed
and every other component unchanged. -/
theorem claim_C9_normalize_idem :
    (∀ s t : Str, normalize_url s = some t → normalize_url t = some t) ∧
    (∀ (u : UrlM) (fv : Str), wfUrl u = true → u.fragment = some fv →
      normalize_url (serializeUrlC u) = some (serializeUrlC { u with fragment := none })) :=
  ⟨fun _ _ h => normalize_url_idem h,
   fun _ _ hwf _ => normalize_url_strips_fragment hwf⟩

/-- Witness for C9 at a concrete URL with a fragment. -/
theorem claim_C9_witness :
    normalize_url (str "https://x.test/a") = some (str "https://x.test/a") ∧
    normalize_url (str "https://x.test/a#frag") = some (str "https://x.test/a") := by
  constructor
  · exact claim_C9_normalize_idem.1 (str "https://x.test/a#frag") (str "https://x.test/a")
      (by decide)
  · exact claim_C9_normalize_idem.2
      ⟨str "https", str "x.test", str "/a", none, some (str "frag")⟩ (str "frag")
      (by decide) rfl

/-- C10: `add_url` imposes no depth precondition — for every depth value, a
normalizable, not-yet-seen URL is inserted into the visited set (so it
counts toward `unique_urls`) and appended to the queue; the depth bound is
enforced only when the entry is dequeued, by discarding it. -/
theorem claim_C10_enqueue_ignores_depth :
    (∀ (fs : FrontierState) (url n : Str) (depth : Nat),
      normalize_url url = some n → fs.visited.contains n = false →
      add_url fs url depth =
        { fs with visited := n :: fs.visited, queue := fs.queue ++ [(n, depth)] }) ∧
    (∀ (cfg : CrawlerConfig) (cc : Str → Bool) (fo : Str → Option PageM)
       (s : CrawlState) (u : Str) (d : Nat) (rest : List (Str × Nat)),
      s.queue = (u, d) :: rest → cfg.max_depth < d →
      stepW cfg cc fo s .pop = ({ s with queue := rest }, .budget)) :=
  ⟨fun fs url n depth hn hv => add_url_unseen fs url depth n hn hv,
   fun cfg cc fo s u d rest hq hd => stepW_pop_overDepth cfg cc fo s u d rest hq hd⟩

/-- Witness for C10: an over-depth URL (depth 7 with `max_depth = 2`) is
enqueued by `add_url` and then discarded at dequeue time. -/
theorem claim_C10_witness :
    add_url ⟨[], []⟩ urlB 7 = ⟨[urlB], [(urlB, 7)]⟩ ∧
    stepW cfgSingle (fun _ => true) foFail ⟨[urlB], [(urlB, 7)], 0, [], []⟩ .pop =
      (⟨[urlB], [], 0, [], []⟩, .budget) := by
  constructor
  · have h := claim_C10_enqueue_ignores_depth.1 ⟨[], []⟩ urlB urlB 7 (by decide) (by decide)
    simpa using h
  · have h := claim_C10_enqueue_ignores_depth.2 cfgSingle (fun _ => true) foFail
      ⟨[urlB], [(urlB, 7)], 0, [], []⟩ urlB 7 [] rfl (by decide)
    simpa using h
